import Mathlib

/-!
Verification development for the mcp-fetch-page server core
(src/mcp-server/server.js).  JavaScript strings are modelled as Lean
strings operated on through their character lists; JavaScript objects are
modelled as association lists in insertion order; fallible JSON parsing is
modelled with Option.  Case folding models the ASCII fragment of
JavaScript toLowerCase, and numeric timestamps are modelled as integers,
the code only scaling and comparing them.
-/

/-- Lowercase every character of a character list (model of the ASCII
fragment of JavaScript toLowerCase). -/
def lowerL (l : List Char) : List Char := l.map Char.toLower

/-- Decide whether the first list is a prefix of the second
(model of JavaScript startsWith). -/
def begins : List Char → List Char → Bool
  | [], _ => true
  | _ :: _, [] => false
  | a :: as, b :: bs => a == b && begins as bs

/-- Decide whether the first list occurs as a contiguous segment of the
second (model of JavaScript includes). -/
def hasSub (needle : List Char) : List Char → Bool
  | [] => needle.isEmpty
  | c :: t => begins needle (c :: t) || hasSub needle t

/-- Decide whether the second list is a suffix of the first
(model of JavaScript endsWith). -/
def endsWithL (s suffix : List Char) : Bool := begins suffix.reverse s.reverse

/-- Strip one leading "www." if present (model of replace with anchored
www pattern, used in server.js lines 190, 224, 309, 361, 369). -/
def stripWwwL (l : List Char) : List Char :=
  if begins ('w' :: 'w' :: 'w' :: '.' :: []) l then l.drop 4 else l

/-- Strip one leading dot if present (model of replace with anchored dot
pattern, server.js line 369). -/
def stripDotL : List Char → List Char
  | '.' :: t => t
  | l => l

/-- Remove leading and trailing whitespace (model of JavaScript trim over
ASCII whitespace). -/
def trimL (l : List Char) : List Char :=
  ((l.dropWhile Char.isWhitespace).reverse.dropWhile Char.isWhitespace).reverse

/-- String wrapper for hasSub: hay contains needle, model of
JavaScript hay.includes(needle). -/
def containsStr (hay needle : String) : Bool := hasSub needle.data hay.data

/-- Look up a key in an association list, first binding wins (model of
JavaScript property read on an object with unique keys). -/
def lookupJS {α : Type} (m : List (String × α)) (k : String) : Option α :=
  (m.find? (fun p => p.1 == k)).map (fun p => p.2)

/-- Replace the binding of a key if present, otherwise append it (model
of JavaScript property assignment: an existing key keeps its position, a
new key is appended). -/
def upsert {α : Type} : List (String × α) → String → α → List (String × α)
  | [], k, v => [(k, v)]
  | p :: t, k, v => if p.1 == k then (k, v) :: t else p :: upsert t k v

/-- Assign every binding of the source onto the target, later source
bindings overriding earlier target ones (model of Object.assign,
server.js line 209). -/
def assignAll (target source : List (String × String)) : List (String × String) :=
  source.foldl (fun t kv => upsert t kv.1 kv.2) target

/-- First-priority choice between two options. -/
def oget {α : Type} : Option α → Option α → Option α
  | some a, _ => some a
  | none, b => b

/-- Cookie record as read from a credential snapshot file
(server.js lines 194-201): every field may be absent or empty in the
JSON, so the string fields model absent as the empty string by the falsy
checks of the source, path and expirationDate are genuinely optional.
The expiration is in seconds since the epoch. -/
structure RawCookie where
  name : String
  value : String
  domain : String
  path : Option String
  expirationDate : Option Int
deriving DecidableEq

/-- Cookie entry as stored in the merged set: the spread copy of the raw
cookie with a normalized path (server.js line 201). -/
structure MCookie where
  name : String
  value : String
  domain : String
  path : String
  expirationDate : Option Int
deriving DecidableEq

/-- Parsed content of one credential snapshot file (server.js lines
183-209): a cookies array (a non-array cookies field is modelled as the
empty list, mirroring the Array.isArray guard) and an optional
localStorage object. -/
structure SnapshotData where
  cookies : List RawCookie
  localStorage : Option (List (String × String))
deriving DecidableEq

/-- One file of the credential directory scan: nameCapture is the lazy
regex capture before the _cookies suffix in the filename (none when the
filename yields no capture), data is the parse result (none models a
parse failure or falsy parse result, server.js lines 183-191). -/
structure CookieFile where
  nameCapture : Option String
  data : Option SnapshotData
deriving DecidableEq

/-- Session-wide merged credential material (server.js lines 174-177). -/
structure MergedCredentialSet where
  cookies : List MCookie
  localStorageByDomain : List (String × List (String × String))
deriving DecidableEq

/-- Path of a cookie with the falsy default applied: an absent or empty
path becomes the root path (server.js line 197). -/
def pathVal (c : RawCookie) : String :=
  match c.path with
  | none => "/"
  | some p => if p == "" then "/" else p

/-- Structural validity check of a cookie entry: the falsy tests on
name, value and domain (server.js line 196). -/
def cookieValid (c : RawCookie) : Bool :=
  c.name != "" && c.value != "" && c.domain != ""

/-- Deduplication key of a raw cookie: the pipe-joined string built at
server.js line 198. -/
def ckey (c : RawCookie) : String :=
  c.name ++ "|" ++ c.domain ++ "|" ++ pathVal c

/-- Deduplication key recomputed from a merged cookie entry. -/
def mkey (m : MCookie) : String :=
  m.name ++ "|" ++ m.domain ++ "|" ++ m.path

/-- Merged copy of a raw cookie (server.js line 201). -/
def toMerged (c : RawCookie) : MCookie :=
  { name := c.name, value := c.value, domain := c.domain,
    path := pathVal c, expirationDate := c.expirationDate }

/-- Source domain derived from the filename capture: the capture with
one leading "www." stripped; an absent or empty capture gives none
(server.js lines 187-191). -/
def sourceDomainOf (f : CookieFile) : Option String :=
  match f.nameCapture with
  | none => none
  | some s => if s == "" then none else some (String.mk (stripWwwL s.data))

/-- Cookie accumulation loop of the merge (server.js lines 195-202):
walk the cookies of one file, skip structurally invalid entries, skip
entries whose key was already seen, otherwise record the key and append
the merged copy. -/
def mergeCookiesInto (seen : List String) (acc : List MCookie) :
    List RawCookie → List String × List MCookie
  | [] => (seen, acc)
  | c :: cs =>
    if cookieValid c then
      if seen.contains (ckey c) then mergeCookiesInto seen acc cs
      else mergeCookiesInto (ckey c :: seen) (acc ++ [toMerged c]) cs
    else mergeCookiesInto seen acc cs

/-- Per-file step of the merge over the running state of seen keys and
merged material (server.js lines 181-215): a file that failed to parse
contributes nothing; cookies are deduplicated through the seen set; the
localStorage object, when present together with a non-empty source
domain, is assigned onto that domain bucket. -/
def fileStep (st : List String × MergedCredentialSet) (f : CookieFile) :
    List String × MergedCredentialSet :=
  match f.data with
  | none => st
  | some data =>
    let merged := mergeCookiesInto st.1 st.2.cookies data.cookies
    let ls :=
      match sourceDomainOf f, data.localStorage with
      | some d, some store =>
        if d == "" then st.2.localStorageByDomain
        else
          upsert st.2.localStorageByDomain d
            (assignAll ((lookupJS st.2.localStorageByDomain d).getD []) store)
      | _, _ => st.2.localStorageByDomain
    (merged.1, { cookies := merged.2, localStorageByDomain := ls })

/-- Merge of every matching credential file (server.js lines 168-221).
The input list is the directory scan restricted to filenames matching
the cookies naming pattern, in scan order.  Returns none when no file
matched, or when the merged material came out empty. -/
def loadAndMergeAllCookies (files : List CookieFile) : Option MergedCredentialSet :=
  if files.isEmpty then none
  else
    let st := files.foldl fileStep ([], { cookies := [], localStorageByDomain := [] })
    if st.2.cookies.isEmpty && st.2.localStorageByDomain.isEmpty then none
    else some st.2

/-- Cookie list of the merge result, the empty list when the merge
returned none. -/
def mergedCookiesOf (files : List CookieFile) : List MCookie :=
  match loadAndMergeAllCookies files with
  | none => []
  | some m => m.cookies

/-- Keys of the merged cookies, in merge order. -/
def mergedKeys (files : List CookieFile) : List String :=
  (mergedCookiesOf files).map mkey

/-- Domain rule resolved for a URL: an optional extraction selector and
the login-wall marker strings (server.js lines 101, 109, 139). -/
structure DomainRule where
  selector : Option String
  blockedIfContains : List String
deriving DecidableEq

/-- Rule returned when nothing matches or the URL does not parse
(server.js lines 139, 141). -/
def emptyRule : DomainRule := { selector := none, blockedIfContains := [] }

/-- Strip one leading "www.", "m." or "mobile." prefix from a hostname
(model of the anchored alternation replace at server.js line 127; the
three alternatives are mutually exclusive on any one string). -/
def stripMobile (l : List Char) : List Char :=
  if begins ('w' :: 'w' :: 'w' :: '.' :: []) l then l.drop 4
  else if begins ('m' :: '.' :: []) l then l.drop 2
  else if begins ('m' :: 'o' :: 'b' :: 'i' :: 'l' :: 'e' :: '.' :: []) l then l.drop 7
  else l

/-- Domain rule lookup for a URL (server.js lines 116-143).  The URL
parser is an external collaborator, so the function receives the parse
result: some hostname, or none for a parse failure.  The rule table is
the normalized configuration in its iteration order. -/
def getDomainRuleForUrl (rules : List (String × DomainRule)) (hostOf : Option String) :
    DomainRule :=
  match hostOf with
  | none => emptyRule
  | some h =>
    let hostname := String.mk (lowerL h.data)
    match lookupJS rules hostname with
    | some r => r
    | none =>
      let mainDomain := String.mk (stripMobile hostname.data)
      match lookupJS rules mainDomain with
      | some r => r
      | none =>
        match rules.find? (fun p =>
            containsStr hostname p.1 || containsStr p.1 mainDomain) with
        | some p => p.2
        | none => emptyRule

/-- JSON-like value, the raw shape of the on-disk rule configuration
(server.js lines 87-88). -/
inductive JValue where
  | jnull : JValue
  | jbool : Bool → JValue
  | jnum : Int → JValue
  | jstr : String → JValue
  | jarr : List JValue → JValue
  | jobj : List (String × JValue) → JValue

/-- Entries of a JSON value seen as a JavaScript object: fields of an
object in insertion order, indexed elements of an array, nothing for
scalars (model of Object.entries). -/
def jsEntries : JValue → List (String × JValue)
  | JValue.jobj fs => fs
  | JValue.jarr xs => xs.enum.map (fun p => (toString p.1, p.2))
  | _ => []

/-- True for values whose JavaScript typeof is object and which are
truthy: objects and arrays, not null. -/
def isObjLike : JValue → Bool
  | JValue.jobj _ => true
  | JValue.jarr _ => true
  | _ => false

/-- Normalization of one rule value (server.js lines 100-110): a string
becomes a bare selector rule; an object-like value contributes its
string selector field and its blocked_if_contains items that are strings
with non-blank trim; anything else is dropped. -/
def normalizeRuleValue : JValue → Option DomainRule
  | JValue.jstr s => some { selector := some s, blockedIfContains := [] }
  | JValue.jobj fields =>
    let sel := match lookupJS fields "selector" with
      | some (JValue.jstr s) => some s
      | _ => none
    let blocked := match lookupJS fields "blocked_if_contains" with
      | some (JValue.jarr xs) =>
        xs.filterMap (fun x =>
          match x with
          | JValue.jstr s => if trimL s.data == [] then none else some s
          | _ => none)
      | _ => []
    some { selector := sel, blockedIfContains := blocked }
  | JValue.jarr _ => some { selector := none, blockedIfContains := [] }
  | _ => none

/-- One entry of the normalization fold: skip an empty key, assign a
normalized value, drop a value that does not normalize. -/
def normStep (acc : List (String × DomainRule)) (p : String × JValue) :
    List (String × DomainRule) :=
  if p.1 == "" then acc
  else match normalizeRuleValue p.2 with
    | some r => upsert acc p.1 r
    | none => acc

/-- Normalization of the raw rule configuration (server.js lines
94-113): non-object roots give the empty table; entries with an empty
key are skipped; each remaining entry is normalized and assigned, values
that are neither strings nor object-like being dropped. -/
def normalizeDomainRules (raw : JValue) : List (String × DomainRule) :=
  if isObjLike raw then (jsEntries raw).foldl normStep [] else []

/-- Normalized cookie domain of the expiry check (server.js line 369):
lowercase, strip one leading dot, then strip one leading www. -/
def cdNorm (domain : String) : List Char := stripWwwL (stripDotL (lowerL domain.data))

/-- Loop body of the expiry scan (server.js lines 367-380): skip a
cookie with a falsy domain or falsy expiration, skip a cookie whose
normalized domain is neither the clean host nor a dot-suffix of it,
otherwise count it and flag it when strictly past the evaluation
time. -/
def expiryStep (cleanHost : List Char) (nowMs : Int) (st : Bool × Nat) (c : MCookie) :
    Bool × Nat :=
  if c.domain == "" then st
  else
    match c.expirationDate with
    | none => st
    | some e =>
      if e == 0 then st
      else
        if cleanHost == cdNorm c.domain ||
            endsWithL cleanHost ('.' :: cdNorm c.domain) then
          (st.1 || decide (e * 1000 < nowMs), st.2 + 1)
        else st

/-- Per-domain cookie expiry check (server.js lines 356-393).  The
evaluation time is in milliseconds since the epoch, cookie expirations
in seconds; the loop counts matching cookies carrying a truthy
expiration and flags those strictly past. -/
def isCookieExpiredForDomain (cookieData : MergedCredentialSet) (hostname : String)
    (nowMs : Int) : Bool :=
  if hostname == "" then false
  else
    let cleanHost := stripWwwL (lowerL hostname.data)
    let res := cookieData.cookies.foldl (expiryStep cleanHost nowMs) (false, 0)
    res.1 && decide (0 < res.2)

/-- Sanitization of a URL path for the page filename (server.js line
415): characters outside the class of ASCII letters, digits, dot and
hyphen are replaced by an underscore. -/
def sanitizePath (p : String) : String :=
  String.mk (p.data.map (fun c =>
    if c.isAlphanum || c == '.' || c == '-' then c else '_'))

/-- Date part of the page filename (server.js line 416): the ISO time
string with colons and dots replaced by hyphens, cut at the first T,
which is the piece the split at T puts first. -/
def timestampOf (isoNow : String) : String :=
  String.mk ((isoNow.data.map (fun c =>
    if c == ':' || c == '.' then '-' else c)).takeWhile (fun c => c != 'T'))

/-- Destination filename of the page store (server.js lines 413-419),
as a function of the parsed hostname, the raw URL path, the ISO clock
reading and the error flag. -/
def savePageFilename (hostname pathname isoNow : String) (isError : Bool) : String :=
  hostname ++ sanitizePath pathname ++ "_" ++ timestampOf isoNow ++
    (if isError then "_ERROR" else "") ++ ".md"

/-- Newline-run collapsing worker: k is the length of the pending run
of newlines; a run is flushed as itself when shorter than three and as
exactly two newlines otherwise. -/
def collapseAux : Nat → List Char → List Char
  | k, [] => List.replicate (min k 2) '\n'
  | k, c :: cs =>
    if c == '\n' then collapseAux (k + 1) cs
    else List.replicate (min k 2) '\n' ++ c :: collapseAux 0 cs

/-- Blank-line compression of the converted body (server.js line 850):
the global greedy replace of three or more consecutive newlines by two
newlines, which rewrites every maximal newline run of length at least
three to exactly two. -/
def compressNewlines (s : String) : String := String.mk (collapseAux 0 s.data)

/-- YAML scalar cleanup (server.js lines 432-434): newlines, with an
optional preceding carriage return, become single spaces, then the ends
are trimmed. -/
def yamlNlToSpace : List Char → List Char
  | [] => []
  | '\r' :: '\n' :: t => ' ' :: yamlNlToSpace t
  | '\n' :: t => ' ' :: yamlNlToSpace t
  | c :: t => c :: yamlNlToSpace t

/-- Model of toYamlPlainString (server.js lines 432-434). -/
def toYamlPlainString (v : String) : String :=
  String.mk (trimL (yamlNlToSpace v.data))

/-- Login-wall notice text (server.js line 866). -/
def tipsMessage : String :=
  "页面内容受限，请使用 mcp-fetch-page chrome extension 重新保存登录态。"

/-- Login-wall detection over the raw page HTML (server.js lines
852-853): some marker of the resolved rule occurs, case-insensitively,
in the full raw HTML. -/
def needsLoginState (rawHtml : String) (markers : List String) : Bool :=
  markers.any (fun m => hasSub (lowerL m.data) (lowerL rawHtml.data))

/-- Front-matter assembly (server.js lines 857-868): title and start
URL always, the final URL when it is non-empty and differs from the
start URL, the login-wall notice when flagged, then the closing fence
and two blank lines. -/
def buildYamlLines (title url finalUrl : String) (needsTips : Bool) : List String :=
  ["---", "title: " ++ toYamlPlainString title,
   "start_url: " ++ toYamlPlainString url] ++
  (if finalUrl != "" && finalUrl != url then
    ["final_url: " ++ toYamlPlainString finalUrl] else []) ++
  (if needsTips then
    ["cookie_expired_tips: " ++ toYamlPlainString tipsMessage] else []) ++
  ["---", "", ""]

/-- Detection of the login-wall notice line among front-matter lines. -/
def hasTipsLine (line : String) : Bool :=
  begins ("cookie_expired_tips:".data) line.data

/-- Valid cookies contributed by one file, in file order: nothing for a
parse failure, otherwise the structurally valid entries. -/
def validCookiesOf (f : CookieFile) : List RawCookie :=
  match f.data with
  | none => []
  | some d => d.cookies.filter cookieValid

/-- Stream of valid cookie occurrences across the whole scan, in scan
order. -/
def validStream (files : List CookieFile) : List RawCookie :=
  files.flatMap validCookiesOf

/-- Specification-side deduplication: keep the first occurrence of each
key not already in the given seen set, in stream order. -/
def firstSeenDedup (seenKeys : List String) : List RawCookie → List MCookie
  | [] => []
  | c :: cs =>
    if seenKeys.contains (ckey c) then firstSeenDedup seenKeys cs
    else toMerged c :: firstSeenDedup (ckey c :: seenKeys) cs

/-- Seen-key set left after deduplicating a stream. -/
def seenAfter (seenKeys : List String) : List RawCookie → List String
  | [] => seenKeys
  | c :: cs =>
    if seenKeys.contains (ckey c) then seenAfter seenKeys cs
    else seenAfter (ckey c :: seenKeys) cs

/-- LocalStorage part of the per-file merge step, taken alone. -/
def lsStep (ls : List (String × List (String × String))) (f : CookieFile) :
    List (String × List (String × String)) :=
  match f.data with
  | none => ls
  | some data =>
    match sourceDomainOf f, data.localStorage with
    | some d, some store =>
      if d == "" then ls
      else upsert ls d (assignAll ((lookupJS ls d).getD []) store)
    | _, _ => ls

/-- LocalStorage accumulation over the whole scan. -/
def lsMerge (ls : List (String × List (String × String))) (files : List CookieFile) :
    List (String × List (String × String)) :=
  files.foldl lsStep ls

/-- Last binding of a key inside one localStorage object, the binding a
later duplicate would leave in place. -/
def revFind (store : List (String × String)) (k : String) : Option String :=
  (store.reverse.find? (fun p => p.1 == k)).map (fun p => p.2)

/-- Value a single file contributes for a domain and key: present only
when the file parsed, carries a localStorage object, and its derived
source domain is exactly the requested non-empty domain. -/
def contribLs (f : CookieFile) (d k : String) : Option String :=
  match f.data with
  | none => none
  | some data =>
    match sourceDomainOf f, data.localStorage with
    | some d2, some store =>
      if d2 == "" then none
      else if d2 == d then revFind store k else none
    | _, _ => none

/-- Specification-side merged localStorage value: the latest-scanned
file with the requested derived domain that binds the key wins. -/
def lastWrite (files : List CookieFile) (d k : String) : Option String :=
  match files with
  | [] => none
  | f :: fs => oget (lastWrite fs d k) (contribLs f d k)

/-- Lookup of one key of one domain bucket in a merged by-domain map. -/
def bLookup (ls : List (String × List (String × String))) (d k : String) :
    Option String :=
  (lookupJS ls d).bind (fun bucket => lookupJS bucket k)

/-- Bucket lookup through the optional merge result. -/
def mergedLsLookup (res : Option MergedCredentialSet) (d k : String) : Option String :=
  match res with
  | none => none
  | some m => bLookup m.localStorageByDomain d k

/-- True when a file passes the guard that lets it touch the merged
localStorage at all (server.js line 205). -/
def lsContribs (f : CookieFile) : Bool :=
  match f.data with
  | none => false
  | some data =>
    match sourceDomainOf f, data.localStorage with
    | some d, some _ => d != ""
    | _, _ => false

/-- Key of the merged copy agrees with the key of the raw cookie. -/
lemma mkey_toMerged (c : RawCookie) : mkey (toMerged c) = ckey c := rfl

/-- Cookie accumulation equals the specification-side deduplication of
the valid entries, appended to the accumulator. -/
lemma mergeCookiesInto_eq (cs : List RawCookie) : ∀ seen acc,
    mergeCookiesInto seen acc cs =
      (seenAfter seen (cs.filter cookieValid),
       acc ++ firstSeenDedup seen (cs.filter cookieValid)) := by
  induction cs with
  | nil => intro seen acc; simp [mergeCookiesInto, seenAfter, firstSeenDedup]
  | cons c cs ih =>
    intro seen acc
    by_cases hv : cookieValid c
    · by_cases hs : ckey c ∈ seen
      · simp [mergeCookiesInto, hv, hs, List.filter_cons, seenAfter, firstSeenDedup, ih]
      · simp [mergeCookiesInto, hv, hs, List.filter_cons, seenAfter, firstSeenDedup, ih]
    · simp [mergeCookiesInto, hv, List.filter_cons, ih]

/-- Deduplication splits along a stream append. -/
lemma firstSeenDedup_append (s : List RawCookie) : ∀ t ks,
    firstSeenDedup ks (s ++ t) =
      firstSeenDedup ks s ++ firstSeenDedup (seenAfter ks s) t := by
  induction s with
  | nil => intro t ks; simp [firstSeenDedup, seenAfter]
  | cons c s ih =>
    intro t ks
    by_cases hs : ckey c ∈ ks
    · simp [firstSeenDedup, seenAfter, hs, ih]
    · simp [firstSeenDedup, seenAfter, hs, ih]

/-- Seen-key evolution splits along a stream append. -/
lemma seenAfter_append (s : List RawCookie) : ∀ t ks,
    seenAfter ks (s ++ t) = seenAfter (seenAfter ks s) t := by
  induction s with
  | nil => intro t ks; simp [seenAfter]
  | cons c s ih =>
    intro t ks
    by_cases hs : ckey c ∈ ks
    · simp [seenAfter, hs, ih]
    · simp [seenAfter, hs, ih]

/-- Choice with a trailing none is the first option. -/
lemma oget_none (a : Option String) : oget a none = a := by cases a <;> rfl

/-- Choice is associative. -/
lemma oget_assoc (a b c : Option String) :
    oget (oget a b) c = oget a (oget b c) := by cases a <;> rfl

/-- Updating a key makes it readable. -/
lemma lookupJS_upsert_self {α : Type} (m : List (String × α)) (k : String) (v : α) :
    lookupJS (upsert m k v) k = some v := by
  induction m with
  | nil => simp [upsert, lookupJS]
  | cons p t ih =>
    by_cases hp : p.1 == k
    · simp [upsert, hp, lookupJS]
    · simp only [upsert, hp, Bool.false_eq_true, if_false]
      simpa [lookupJS, List.find?_cons, hp] using ih

/-- Updating one key leaves the others unchanged. -/
lemma lookupJS_upsert_ne {α : Type} (m : List (String × α)) (k k2 : String) (v : α)
    (h : k2 ≠ k) : lookupJS (upsert m k v) k2 = lookupJS m k2 := by
  induction m with
  | nil => simp [upsert, lookupJS, List.find?, show (k == k2) = false by
      simpa using fun e => h e.symm]
  | cons p t ih =>
    by_cases hp : p.1 == k
    · have hk2 : (k == k2) = false := by simpa using fun e => h e.symm
      have hp2 : (p.1 == k2) = false := by
        have hpk : p.1 = k := by simpa using hp
        simpa [hpk] using fun e => h e.symm
      simp [upsert, hp, lookupJS, List.find?_cons, hk2, hp2]
    · simp only [upsert, hp, Bool.false_eq_true, if_false]
      by_cases hq : p.1 == k2
      · simp [lookupJS, List.find?_cons, hq]
      · simpa [lookupJS, List.find?_cons, hq] using ih

/-- Updating never empties a map. -/
lemma upsert_ne_nil {α : Type} (m : List (String × α)) (k : String) (v : α) :
    upsert m k v ≠ [] := by
  cases m with
  | nil => simp [upsert]
  | cons p t => by_cases hp : p.1 == k <;> simp [upsert, hp]

/-- Reading after a bulk assignment: the last binding of the source
wins, else the target binding shows through. -/
lemma lookupJS_assignAll (s : List (String × String)) : ∀ t k,
    lookupJS (assignAll t s) k = oget (revFind s k) (lookupJS t k) := by
  induction s with
  | nil => intro t k; simp [assignAll, revFind, oget]
  | cons p s ih =>
    intro t k
    have hstep : assignAll t (p :: s) = assignAll (upsert t p.1 p.2) s := by
      simp [assignAll]
    have hrev : revFind (p :: s) k = oget (revFind s k) (if p.1 == k then some p.2 else none) := by
      simp only [revFind, List.reverse_cons, List.find?_append]
      cases hfs : List.find? (fun q => q.1 == k) s.reverse with
      | none =>
        by_cases hp : p.1 == k <;> simp [List.find?, hp, oget, Option.or]
      | some q => simp [oget, Option.or]
    rw [hstep, ih, hrev, oget_assoc]
    by_cases hp : p.1 == k
    · have hk : lookupJS (upsert t p.1 p.2) k = some p.2 := by
        rw [show k = p.1 from by simpa using (beq_iff_eq.mp hp).symm]
        exact lookupJS_upsert_self t p.1 p.2
      simp [hp, hk, oget]
    · have hk : lookupJS (upsert t p.1 p.2) k = lookupJS t k := by
        refine lookupJS_upsert_ne t p.1 k p.2 ?_
        simpa using fun e => by simp [e] at hp
      simp [hp, hk, oget]

/-- One localStorage merge step, observed through a bucket lookup:
the contribution of the file wins over the previous state. -/
lemma bLookup_lsStep (ls : List (String × List (String × String))) (f : CookieFile)
    (d k : String) : bLookup (lsStep ls f) d k = oget (contribLs f d k) (bLookup ls d k) := by
  match hd : f.data with
  | none => simp [lsStep, contribLs, hd, oget]
  | some data =>
    match hs : sourceDomainOf f, hl : data.localStorage with
    | none, none => simp [lsStep, contribLs, hd, hs, hl, oget]
    | none, some store => simp [lsStep, contribLs, hd, hs, hl, oget]
    | some d2, none => simp [lsStep, contribLs, hd, hs, hl, oget]
    | some d2, some store =>
      by_cases hd2 : d2 == ""
      · simp [lsStep, contribLs, hd, hs, hl, hd2, oget]
      · by_cases hdd : d2 == d
        · have hde : d = d2 := by simpa using (beq_iff_eq.mp hdd).symm
          have hbucket : lookupJS ((lookupJS ls d2).getD []) k = bLookup ls d k := by
            rw [hde, bLookup]
            cases hb : lookupJS ls d2 with
            | none => simp [lookupJS]
            | some b => rfl
          simp only [lsStep, contribLs, hd, hs, hl, hd2, Bool.false_eq_true, if_false, hdd,
            if_true, bLookup]
          rw [hde, lookupJS_upsert_self]
          simp only [Option.some_bind]
          rw [lookupJS_assignAll, hbucket, hde, bLookup]
        · have hne : d ≠ d2 := by
            intro e
            exact hdd (by simp [e])
          simp only [lsStep, contribLs, hd, hs, hl, hd2, Bool.false_eq_true, if_false, hdd,
            bLookup]
          rw [lookupJS_upsert_ne _ _ _ _ hne]
          simp [bLookup, oget]

/-- LocalStorage accumulation, observed through a bucket lookup: the
last write of the scan wins, the initial state showing through last. -/
lemma bLookup_lsMerge (files : List CookieFile) : ∀ ls d k,
    bLookup (lsMerge ls files) d k = oget (lastWrite files d k) (bLookup ls d k) := by
  induction files with
  | nil => intro ls d k; simp [lsMerge, lastWrite, oget]
  | cons f fs ih =>
    intro ls d k
    have hstep : lsMerge ls (f :: fs) = lsMerge (lsStep ls f) fs := by
      simp [lsMerge]
    rw [hstep, ih, bLookup_lsStep, lastWrite, ← oget_assoc]

/-- A localStorage merge step leaves the map empty exactly when it was
empty and the file does not contribute. -/
lemma lsStep_nil_iff (ls : List (String × List (String × String))) (f : CookieFile) :
    lsStep ls f = [] ↔ (ls = [] ∧ lsContribs f = false) := by
  match hd : f.data with
  | none => simp [lsStep, lsContribs, hd]
  | some data =>
    match hs : sourceDomainOf f, hl : data.localStorage with
    | none, none => simp [lsStep, lsContribs, hd, hs, hl]
    | none, some store => simp [lsStep, lsContribs, hd, hs, hl]
    | some d2, none => simp [lsStep, lsContribs, hd, hs, hl]
    | some d2, some store =>
      by_cases hd2 : d2 == ""
      · have he : d2 = "" := by simpa using hd2
        simp [lsStep, lsContribs, hd, hs, hl, hd2, he]
      · have he : d2 ≠ "" := by simpa using hd2
        simp [lsStep, lsContribs, hd, hs, hl, hd2, upsert_ne_nil, he]

/-- The accumulated localStorage map is empty exactly when it started
empty and no file contributes. -/
lemma lsMerge_nil_iff (files : List CookieFile) : ∀ ls,
    lsMerge ls files = [] ↔ (ls = [] ∧ ∀ f ∈ files, lsContribs f = false) := by
  induction files with
  | nil => intro ls; simp [lsMerge]
  | cons f fs ih =>
    intro ls
    have hstep : lsMerge ls (f :: fs) = lsMerge (lsStep ls f) fs := by
      simp [lsMerge]
    rw [hstep, ih, lsStep_nil_iff]
    constructor
    · rintro ⟨⟨h1, h2⟩, h3⟩
      exact ⟨h1, by intro g hg; rcases List.mem_cons.mp hg with rfl | hg2
                    · exact h2
                    · exact h3 g hg2⟩
    · rintro ⟨h1, h2⟩
      exact ⟨⟨h1, h2 f (List.mem_cons_self f fs)⟩,
             fun g hg => h2 g (List.mem_cons_of_mem f hg)⟩

/-- Deduplication gives the empty list exactly when every stream key
was already seen. -/
lemma firstSeenDedup_nil (s : List RawCookie) : ∀ ks,
    (firstSeenDedup ks s = [] ↔ ∀ c ∈ s, ckey c ∈ ks) := by
  induction s with
  | nil => intro ks; simp [firstSeenDedup]
  | cons c s ih =>
    intro ks
    by_cases hs : ckey c ∈ ks
    · simp [firstSeenDedup, hs, ih]
    · simp [firstSeenDedup, hs]

/-- Membership among the keys of a deduplicated stream: exactly the
stream keys not yet seen. -/
lemma mem_mkey_firstSeenDedup (s : List RawCookie) : ∀ ks k,
    (k ∈ (firstSeenDedup ks s).map mkey ↔ (k ∉ ks ∧ k ∈ s.map ckey)) := by
  induction s with
  | nil => intro ks k; simp [firstSeenDedup]
  | cons c s ih =>
    intro ks k
    by_cases hs : ckey c ∈ ks
    · rw [show firstSeenDedup ks (c :: s) = firstSeenDedup ks s by simp [firstSeenDedup, hs],
        ih]
      simp only [List.map_cons, List.mem_cons]
      constructor
      · rintro ⟨h1, h2⟩; exact ⟨h1, Or.inr h2⟩
      · rintro ⟨h1, h2 | h3⟩
        · exact absurd (h2 ▸ hs) h1
        · exact ⟨h1, h3⟩
    · rw [show firstSeenDedup ks (c :: s) = toMerged c :: firstSeenDedup (ckey c :: ks) s by
        simp [firstSeenDedup, hs]]
      simp only [List.map_cons, List.mem_cons, mkey_toMerged, ih]
      constructor
      · rintro (rfl | ⟨h1, h2⟩)
        · exact ⟨hs, Or.inl rfl⟩
        · exact ⟨fun hk => h1 (Or.inr hk), Or.inr h2⟩
      · rintro ⟨h1, rfl | h2⟩
        · exact Or.inl rfl
        · by_cases he : k = ckey c
          · exact Or.inl he
          · exact Or.inr ⟨by simp [he, h1], h2⟩

/-- Keys of a deduplicated stream are pairwise distinct. -/
lemma nodup_mkey_firstSeenDedup (s : List RawCookie) : ∀ ks,
    ((firstSeenDedup ks s).map mkey).Nodup := by
  induction s with
  | nil => intro ks; simp [firstSeenDedup]
  | cons c s ih =>
    intro ks
    by_cases hs : ckey c ∈ ks
    · rw [show firstSeenDedup ks (c :: s) = firstSeenDedup ks s by simp [firstSeenDedup, hs]]
      exact ih ks
    · rw [show firstSeenDedup ks (c :: s) = toMerged c :: firstSeenDedup (ckey c :: ks) s by
        simp [firstSeenDedup, hs]]
      refine List.nodup_cons.mpr ⟨?_, ih (ckey c :: ks)⟩
      rw [mkey_toMerged]
      intro hmem
      exact ((mem_mkey_firstSeenDedup s (ckey c :: ks) (ckey c)).mp hmem).1
        (List.mem_cons_self _ _)

/-- The localStorage part of the merge state never consults the cookie
part, and conversely, so the fold over files decomposes into the
deduplicated valid cookie stream and the localStorage accumulation. -/
lemma foldl_fileStep (files : List CookieFile) : ∀ seen cks ls,
    files.foldl fileStep (seen, { cookies := cks, localStorageByDomain := ls }) =
      (seenAfter seen (validStream files),
       { cookies := cks ++ firstSeenDedup seen (validStream files),
         localStorageByDomain := lsMerge ls files }) := by
  induction files with
  | nil => intro seen cks ls; simp [validStream, seenAfter, firstSeenDedup, lsMerge]
  | cons f fs ih =>
    intro seen cks ls
    have hstream : validStream (f :: fs) = validCookiesOf f ++ validStream fs := by
      simp [validStream]
    match hf : f.data with
    | none =>
      have hvc : validCookiesOf f = [] := by simp [validCookiesOf, hf]
      simp only [List.foldl_cons, fileStep, hf]
      rw [ih, hstream, hvc]
      simp [lsMerge, lsStep, hf]
    | some data =>
      have hvc : validCookiesOf f = data.cookies.filter cookieValid := by
        simp [validCookiesOf, hf]
      simp only [List.foldl_cons, fileStep, hf, mergeCookiesInto_eq]
      rw [ih, hstream, hvc, firstSeenDedup_append, seenAfter_append, List.append_assoc]
      simp only [lsMerge, List.foldl_cons, lsStep, hf]

/-- Closed form of the merge for a non-empty scan: deduplicated valid
cookie stream plus accumulated localStorage, with the emptiness test. -/
lemma loadAndMerge_eq (files : List CookieFile) (h : files ≠ []) :
    loadAndMergeAllCookies files =
      (if (firstSeenDedup [] (validStream files)).isEmpty &&
          (lsMerge [] files).isEmpty then none
       else some { cookies := firstSeenDedup [] (validStream files),
                   localStorageByDomain := lsMerge [] files }) := by
  unfold loadAndMergeAllCookies
  rw [if_neg (by simpa [List.isEmpty_iff] using h)]
  rw [foldl_fileStep]
  simp

/-- The merged cookie list is the deduplication of the valid cookie
stream, also through the none cases. -/
lemma mergedCookiesOf_eq (files : List CookieFile) :
    mergedCookiesOf files = firstSeenDedup [] (validStream files) := by
  by_cases h : files = []
  · subst h
    simp [mergedCookiesOf, loadAndMergeAllCookies, validStream, firstSeenDedup]
  · unfold mergedCookiesOf
    rw [loadAndMerge_eq files h]
    by_cases he : ((firstSeenDedup [] (validStream files)).isEmpty &&
        (lsMerge [] files).isEmpty) = true
    · rw [if_pos he]
      have : (firstSeenDedup [] (validStream files)).isEmpty = true :=
        (Bool.and_eq_true_iff.mp he).1
      simp [List.isEmpty_iff.mp this]
    · rw [if_neg he]


/-- Claim-shaped completeness property for the cookie merge: every
valid cookie occurrence of the scan keeps a merged entry carrying its
identity triple of name, domain and defaulted path. -/
def c1KeyComplete (files : List CookieFile) : Prop :=
  ∀ c ∈ validStream files, ∃ m ∈ mergedCookiesOf files,
    m.name = c.name ∧ m.domain = c.domain ∧ m.path = pathVal c

/-- Single snapshot file holding two valid cookies with distinct
identity triples whose pipe-joined keys nevertheless collide: the name
of the first contains the separator character. -/
def c1File : CookieFile :=
  { nameCapture := some "x.com",
    data := some
      { cookies :=
          [{ name := "n|x", value := "v1", domain := "d", path := some "/",
             expirationDate := none },
           { name := "n", value := "v2", domain := "x", path := some "d|/",
             expirationDate := none }],
        localStorage := none } }

/-- C1 counterexample: deduplication works on the pipe-joined string
key, not on the triple itself, so a second valid cookie with a distinct
triple but a colliding joined key is discarded and the merged set keeps
no entry for its triple at all. -/
theorem c1_counterexample : ¬ c1KeyComplete [c1File] := by
  unfold c1KeyComplete
  decide

/-- C1 (amended): cookies are deduplicated first-seen by the joined
string key name, pipe, domain, pipe, defaulted path — which coincides
with the identity triple whenever no field contains a pipe — and the
merged list carries pairwise distinct joined keys. -/
theorem c1_first_seen_by_string_key (files : List CookieFile) :
    mergedCookiesOf files = firstSeenDedup [] (validStream files) ∧
    ((mergedCookiesOf files).map mkey).Nodup :=
  ⟨mergedCookiesOf_eq files, by
    rw [mergedCookiesOf_eq files]
    exact nodup_mkey_firstSeenDedup _ []⟩

/-- C2: the merged localStorage value of any derived domain and key is
the one written by the latest-scanned contributing file, later files
overriding earlier ones key by key. -/
theorem c2_localStorage_last_seen (files : List CookieFile) (d k : String) :
    mergedLsLookup (loadAndMergeAllCookies files) d k = lastWrite files d k := by
  by_cases h : files = []
  · subst h
    simp [loadAndMergeAllCookies, mergedLsLookup, lastWrite]
  · rw [loadAndMerge_eq files h]
    have hbm := bLookup_lsMerge files [] d k
    have hnil : bLookup [] d k = none := by simp [bLookup, lookupJS]
    rw [hnil, oget_none] at hbm
    by_cases he : ((firstSeenDedup [] (validStream files)).isEmpty &&
        (lsMerge [] files).isEmpty) = true
    · rw [if_pos he]
      have hls : lsMerge [] files = [] :=
        List.isEmpty_iff.mp (Bool.and_eq_true_iff.mp he).2
      rw [hls, hnil] at hbm
      simpa [mergedLsLookup] using hbm
    · rw [if_neg he]
      simpa [mergedLsLookup] using hbm

/-- C6: the merge returns none exactly when the scan matched no file or
every matched file contributes neither a valid cookie nor localStorage
material; and a file that fails to parse is skipped, leaving the merge
result exactly as if the file were absent. -/
theorem c6_none_iff_no_material :
    (∀ files : List CookieFile, loadAndMergeAllCookies files = none ↔
      (files = [] ∨ ∀ f ∈ files, validCookiesOf f = [] ∧ lsContribs f = false)) ∧
    (∀ (l1 l2 : List CookieFile) (nm : Option String),
      loadAndMergeAllCookies (l1 ++ { nameCapture := nm, data := none } :: l2) =
        loadAndMergeAllCookies (l1 ++ l2)) := by
  constructor
  · intro files
    by_cases h : files = []
    · subst h
      simp [loadAndMergeAllCookies]
    · rw [loadAndMerge_eq files h]
      have hsplit : (if (firstSeenDedup [] (validStream files)).isEmpty &&
            (lsMerge [] files).isEmpty then (none : Option MergedCredentialSet)
          else some { cookies := firstSeenDedup [] (validStream files),
                      localStorageByDomain := lsMerge [] files }) = none ↔
          ((firstSeenDedup [] (validStream files)).isEmpty = true ∧
           (lsMerge [] files).isEmpty = true) := by
        by_cases hc : ((firstSeenDedup [] (validStream files)).isEmpty &&
            (lsMerge [] files).isEmpty) = true
        · simp [hc, Bool.and_eq_true_iff.mp hc]
        · simp only [hc, if_false]
          constructor
          · intro hx; exact absurd hx (by simp)
          · intro hx; exact absurd (Bool.and_eq_true_iff.mpr hx) hc
      rw [hsplit]
      have hck : (firstSeenDedup [] (validStream files)).isEmpty = true ↔
          ∀ f ∈ files, validCookiesOf f = [] := by
        rw [List.isEmpty_iff, firstSeenDedup_nil]
        constructor
        · intro hh f hf
          rw [List.eq_nil_iff_forall_not_mem]
          intro c hc
          have hx := hh c (List.mem_flatMap.mpr ⟨f, hf, hc⟩)
          simp at hx
        · intro hh c hc
          rcases List.mem_flatMap.mp hc with ⟨f, hf, hcf⟩
          rw [hh f hf] at hcf
          simp at hcf
      have hls : (lsMerge [] files).isEmpty = true ↔
          ∀ f ∈ files, lsContribs f = false := by
        rw [List.isEmpty_iff, lsMerge_nil_iff]
        simp
      rw [hck, hls]
      constructor
      · rintro ⟨h1, h2⟩
        exact Or.inr (fun f hf => ⟨h1 f hf, h2 f hf⟩)
      · rintro (he | hall)
        · exact absurd he h
        · exact ⟨fun f hf => (hall f hf).1, fun f hf => (hall f hf).2⟩
  · intro l1 l2 nm
    have hvx : validCookiesOf { nameCapture := nm, data := none } = [] := rfl
    have hstream : validStream (l1 ++ { nameCapture := nm, data := none } :: l2) =
        validStream (l1 ++ l2) := by
      simp [validStream, hvx]
    have hls : lsMerge [] (l1 ++ { nameCapture := nm, data := none } :: l2) =
        lsMerge [] (l1 ++ l2) := by
      simp only [lsMerge, List.foldl_append, List.foldl_cons]
      rfl
    by_cases hne : l1 ++ l2 = []
    · have h1 : l1 = [] := by
        cases l1 with
        | nil => rfl
        | cons a t => simp at hne
      have h2 : l2 = [] := by
        rw [h1] at hne
        simpa using hne
      subst h1; subst h2
      rw [loadAndMerge_eq _ (by simp)]
      have hv : validStream ([] ++ { nameCapture := nm, data := none } :: []) = [] := by
        simp [validStream, hvx]
      rw [hv]
      simp [loadAndMergeAllCookies, firstSeenDedup, lsMerge, lsStep]
    · rw [loadAndMerge_eq _ (by simp), loadAndMerge_eq _ hne, hstream, hls]

/-- Snapshot cookie shared between the two order-swap files, first
value. -/
def c7CookieA : RawCookie :=
  { name := "a", value := "v1", domain := "x.com", path := some "/",
    expirationDate := none }

/-- Snapshot cookie shared between the two order-swap files, second
value. -/
def c7CookieB : RawCookie :=
  { name := "a", value := "v2", domain := "x.com", path := some "/",
    expirationDate := none }

/-- First snapshot file of the order-swap pair. -/
def c7FileA : CookieFile :=
  { nameCapture := some "x.com",
    data := some { cookies := [c7CookieA], localStorage := none } }

/-- Second snapshot file of the order-swap pair, same key with another
value. -/
def c7FileB : CookieFile :=
  { nameCapture := some "x.com",
    data := some { cookies := [c7CookieB], localStorage := none } }

/-- C7 counterexample: scanning the same two files in the two orders
yields different merged cookie sets — each order keeps its first file's
value for the shared key — so the merged cookie set is not independent
of the scan order. -/
theorem c7_counterexample :
    mergedCookiesOf [c7FileA, c7FileB] = [toMerged c7CookieA] ∧
    mergedCookiesOf [c7FileB, c7FileA] = [toMerged c7CookieB] ∧
    toMerged c7CookieA ≠ toMerged c7CookieB := by decide

/-- C7 (amended): the merge is a pure function of the scanned file
list, and the set of merged cookie identity keys — though not the
retained values — is invariant under permuting the scan order. -/
theorem c7_key_set_order_independent (files files2 : List CookieFile)
    (hp : files.Perm files2) (k : String) :
    (k ∈ mergedKeys files ↔ k ∈ mergedKeys files2) := by
  have hmem : ∀ fl : List CookieFile, (k ∈ mergedKeys fl ↔
      ∃ f ∈ fl, ∃ c ∈ validCookiesOf f, ckey c = k) := by
    intro fl
    rw [mergedKeys, mergedCookiesOf_eq, mem_mkey_firstSeenDedup]
    simp [validStream, List.mem_flatMap]
    constructor
    · rintro ⟨c, ⟨f, hf, hc⟩, hk⟩
      exact ⟨f, hf, c, hc, hk⟩
    · rintro ⟨f, hf, c, hc, hk⟩
      exact ⟨c, ⟨f, hf, hc⟩, hk⟩
  rw [hmem files, hmem files2]
  constructor
  · rintro ⟨f, hf, hrest⟩
    exact ⟨f, hp.mem_iff.mp hf, hrest⟩
  · rintro ⟨f, hf, hrest⟩
    exact ⟨f, hp.mem_iff.mpr hf, hrest⟩

/-- C7 witness: the amended order-independence applied to the concrete
order-swapped pair of files at the shared key. -/
theorem c7_key_set_order_independent_witness :
    ("a|x.com|/" ∈ mergedKeys [c7FileA, c7FileB] ↔
     "a|x.com|/" ∈ mergedKeys [c7FileB, c7FileA]) :=
  c7_key_set_order_independent [c7FileA, c7FileB] [c7FileB, c7FileA]
    (by decide) "a|x.com|/"

/-- Marker for a cookie that the expiry loop counts: truthy domain,
truthy expiration, normalized domain equal to the clean host or a
dot-suffix of it. -/
def expiryCounts (cleanHost : List Char) (c : MCookie) : Bool :=
  c.domain != "" &&
  match c.expirationDate with
  | none => false
  | some e => e != 0 &&
      (cleanHost == cdNorm c.domain || endsWithL cleanHost ('.' :: cdNorm c.domain))

/-- Marker for a counted cookie whose expiration lies strictly before
the evaluation time. -/
def expiryTrips (cleanHost : List Char) (nowMs : Int) (c : MCookie) : Bool :=
  expiryCounts cleanHost c &&
  match c.expirationDate with
  | none => false
  | some e => decide (e * 1000 < nowMs)

/-- One expiry step in closed form: flag update by the tripping
marker, counter update by the counting marker. -/
lemma expiryStep_eq (cleanHost : List Char) (nowMs : Int) (st : Bool × Nat) (c : MCookie) :
    expiryStep cleanHost nowMs st c =
      (st.1 || expiryTrips cleanHost nowMs c,
       st.2 + (if expiryCounts cleanHost c then 1 else 0)) := by
  unfold expiryStep expiryTrips expiryCounts
  by_cases hd : c.domain == ""
  · have hdd : (c.domain != "") = false := by simp [bne]; simpa using hd
    simp [hd, hdd]
  · have hdd : (c.domain != "") = true := by simp [bne]; simpa using hd
    rcases hEd : c.expirationDate with _ | e
    · simp [hd, hdd]
    · by_cases he : e == 0
      · have hee : (e != 0) = false := by simp [bne]; simpa using he
        simp [hd, hdd, he, hee]
      · have hee : (e != 0) = true := by simp [bne]; simpa using he
        by_cases hm : (cleanHost == cdNorm c.domain ||
            endsWithL cleanHost ('.' :: cdNorm c.domain)) = true
        · simp [hd, hdd, he, hee, hm]
        · simp only [Bool.not_eq_true] at hm
          simp [hd, hdd, he, hee, hm]

/-- Closed form of the expiry scan: the flag collects any tripping
cookie, the counter counts the counted ones. -/
lemma foldl_expiryStep (cleanHost : List Char) (nowMs : Int) (cookies : List MCookie) :
    ∀ st : Bool × Nat,
    cookies.foldl (expiryStep cleanHost nowMs) st =
      (st.1 || cookies.any (expiryTrips cleanHost nowMs),
       st.2 + cookies.countP (expiryCounts cleanHost)) := by
  induction cookies with
  | nil => intro st; simp
  | cons c cs ih =>
    intro st
    rw [List.foldl_cons, expiryStep_eq, ih]
    rw [Prod.ext_iff]
    constructor
    · simp [List.any_cons, Bool.or_assoc]
    · simp only [List.countP_cons]
      by_cases hc : expiryCounts cleanHost c = true
      · simp [hc]; omega
      · simp [hc]

/-- Pointwise reading of the tripping marker. -/
lemma expiryTrips_iff (cleanHost : List Char) (nowMs : Int) (c : MCookie) :
    expiryTrips cleanHost nowMs c = true ↔
      (c.domain ≠ "" ∧ ∃ e, c.expirationDate = some e ∧ e ≠ 0 ∧
        (cleanHost = cdNorm c.domain ∨
         endsWithL cleanHost ('.' :: cdNorm c.domain) = true) ∧
        e * 1000 < nowMs) := by
  match hEd : c.expirationDate with
  | none => simp [expiryTrips, expiryCounts, hEd]
  | some e =>
    simp [expiryTrips, expiryCounts, hEd, Bool.and_eq_true, and_assoc]

/-- C3 (amended): the per-domain expiry check returns true exactly when
the hostname is non-empty and some cookie has a non-empty domain, a
non-zero expiration timestamp strictly before the evaluation time, and
a normalized domain matching the hostname — the cookie domain being
normalized by lowercasing then stripping a leading dot then a leading
www, the hostname by lowercasing then stripping a leading www only. -/
theorem c3_expiry_iff (s : MergedCredentialSet) (hostname : String) (nowMs : Int) :
    isCookieExpiredForDomain s hostname nowMs = true ↔
      (hostname ≠ "" ∧ ∃ c ∈ s.cookies, c.domain ≠ "" ∧
        ∃ e, c.expirationDate = some e ∧ e ≠ 0 ∧
        (stripWwwL (lowerL hostname.data) = cdNorm c.domain ∨
         endsWithL (stripWwwL (lowerL hostname.data)) ('.' :: cdNorm c.domain) = true) ∧
        e * 1000 < nowMs) := by
  unfold isCookieExpiredForDomain
  by_cases hh : hostname == ""
  · have he : hostname = "" := by simpa using hh
    simp [hh, he]
  · have hne : hostname ≠ "" := by simpa using hh
    rw [if_neg (by simpa using hh)]
    simp only [foldl_expiryStep, Bool.false_or, Nat.zero_add]
    have key : (s.cookies.any (expiryTrips (stripWwwL (lowerL hostname.data)) nowMs) &&
        decide (0 < s.cookies.countP (expiryCounts (stripWwwL (lowerL hostname.data))))) =
        s.cookies.any (expiryTrips (stripWwwL (lowerL hostname.data)) nowMs) := by
      cases ha : s.cookies.any (expiryTrips (stripWwwL (lowerL hostname.data)) nowMs) with
      | false => simp
      | true =>
        rcases List.any_eq_true.mp ha with ⟨c, hc, htrip⟩
        have hcnt : expiryCounts (stripWwwL (lowerL hostname.data)) c = true :=
          (Bool.and_eq_true_iff.mp htrip).1
        have hpos : 0 < s.cookies.countP (expiryCounts (stripWwwL (lowerL hostname.data))) :=
          List.countP_pos_iff.mpr ⟨c, hc, hcnt⟩
        simp [hpos]
    rw [key, List.any_eq_true]
    constructor
    · rintro ⟨c, hc, htrip⟩
      exact ⟨hne, c, hc, (expiryTrips_iff _ _ _).mp htrip⟩
    · rintro ⟨_, c, hc, hrest⟩
      exact ⟨c, hc, (expiryTrips_iff _ _ _).mpr hrest⟩

/-- Claim-shaped expiry predicate, as the specification words it: some
cookie carries an expiration timestamp strictly before the evaluation
time and its domain matches the hostname after normalizing both sides
by stripping a leading dot and a leading www. -/
def c3ClaimPred (s : MergedCredentialSet) (hostname : String) (nowMs : Int) : Prop :=
  ∃ c ∈ s.cookies, ∃ e, c.expirationDate = some e ∧
    (stripWwwL (stripDotL (lowerL hostname.data)) = cdNorm c.domain ∨
     endsWithL (stripWwwL (stripDotL (lowerL hostname.data)))
       ('.' :: cdNorm c.domain) = true) ∧
    e * 1000 < nowMs

/-- Merged set with a single matching cookie whose expiration
timestamp is zero — the epoch, long past. -/
def c3Set : MergedCredentialSet :=
  { cookies := [{ name := "a", value := "v", domain := "x.com", path := "/",
                  expirationDate := some 0 }],
    localStorageByDomain := [] }

/-- C3 counterexample: a cookie with expiration timestamp zero has an
expiration strictly before the evaluation time and a matching domain,
so the claim calls the set expired, yet the code skips the cookie at
its falsy-expiration guard and returns false. -/
theorem c3_counterexample :
    c3ClaimPred c3Set "x.com" 1000 ∧
    isCookieExpiredForDomain c3Set "x.com" 1000 = false := by
  constructor
  · exact ⟨{ name := "a", value := "v", domain := "x.com", path := "/",
             expirationDate := some 0 }, by decide, 0, rfl, Or.inl (by decide), by decide⟩
  · decide

/-- Resolver written to the words of the specification: try the exact
lowercased hostname against the table, then the hostname with one
leading www, m or mobile prefix stripped, then the first configured key
in iteration order such that the hostname contains the key or the key
contains the stripped hostname; the empty rule when nothing matches or
the URL does not parse. -/
def resolveRuleSpec (rules : List (String × DomainRule)) (hostOf : Option String) :
    DomainRule :=
  match hostOf with
  | none => emptyRule
  | some h =>
    (oget (lookupJS rules (String.mk (lowerL h.data)))
      (oget (lookupJS rules (String.mk (stripMobile (lowerL h.data))))
        ((rules.find? (fun p => containsStr (String.mk (lowerL h.data)) p.1 ||
            containsStr p.1 (String.mk (stripMobile (lowerL h.data))))).map
          (fun p => p.2)))).getD emptyRule

/-- C4: the resolver of the source follows exactly the three-stage
matching order of the specification — exact lowercased hostname, then
stripped prefix, then first bidirectional-containment match in table
iteration order — returning the empty rule on no match or parse
failure. -/
theorem c4_matching_order (rules : List (String × DomainRule)) (hostOf : Option String) :
    getDomainRuleForUrl rules hostOf = resolveRuleSpec rules hostOf := by
  cases hostOf with
  | none => rfl
  | some h =>
    simp only [getDomainRuleForUrl, resolveRuleSpec]
    cases h1 : lookupJS rules (String.mk (lowerL h.data)) with
    | some r => simp [oget]
    | none =>
      cases h2 : lookupJS rules (String.mk (stripMobile (lowerL h.data))) with
      | some r => simp [oget]
      | none =>
        cases h3 : rules.find? (fun p => containsStr (String.mk (lowerL h.data)) p.1 ||
            containsStr p.1 (String.mk (stripMobile (lowerL h.data)))) with
        | some p => simp [oget]
        | none => simp [oget]

/-- Filename derived as the claim words it, with every character of the
path outside ASCII letters and digits replaced by an underscore. -/
def c5ClaimFilename (hostname pathname isoNow : String) (isError : Bool) : String :=
  hostname ++ String.mk (pathname.data.map (fun c =>
    if c.isAlphanum then c else '_')) ++
  "_" ++ timestampOf isoNow ++ (if isError then "_ERROR" else "") ++ ".md"

/-- C5 counterexample: the source keeps dots and hyphens of the URL
path, so for the path slash a dot b the stored filename differs from
the one the claim derives by replacing every non-alphanumeric
character. -/
theorem c5_counterexample :
    savePageFilename "example.com" "/a.b" "2026-10-11T12:00:00.000Z" false ≠
      c5ClaimFilename "example.com" "/a.b" "2026-10-11T12:00:00.000Z" false := by
  decide

/-- Filename as the amended claim words it: characters of the path
outside the class of ASCII letters, digits, dot and hyphen become
underscores; hostname, date-only timestamp and error suffix as
before. -/
def c5AmendedFilename (hostname pathname isoNow : String) (isError : Bool) : String :=
  hostname ++ String.mk (pathname.data.map (fun c =>
    if ('a' ≤ c ∧ c ≤ 'z') ∨ ('A' ≤ c ∧ c ≤ 'Z') ∨ ('0' ≤ c ∧ c ≤ '9')
        ∨ c = '.' ∨ c = '-' then c else '_')) ++
  "_" ++ timestampOf isoNow ++ (if isError then "_ERROR" else "") ++ ".md"

/-- Sanitizer characters agree between the source form and the spelled
out character class of the amended claim. -/
lemma sanChar_eq (c : Char) :
    (if c.isAlphanum || c == '.' || c == '-' then c else '_') =
      (if ('a' ≤ c ∧ c ≤ 'z') ∨ ('A' ≤ c ∧ c ≤ 'Z') ∨ ('0' ≤ c ∧ c ≤ '9')
          ∨ c = '.' ∨ c = '-' then c else '_') := by
  have hiff : (c.isAlphanum || c == '.' || c == '-') = true ↔
      (('a' ≤ c ∧ c ≤ 'z') ∨ ('A' ≤ c ∧ c ≤ 'Z') ∨ ('0' ≤ c ∧ c ≤ '9')
        ∨ c = '.' ∨ c = '-') := by
    simp [Char.isAlphanum, Char.isAlpha, Char.isDigit, Char.isUpper, Char.isLower,
      Char.le_def, Bool.or_eq_true, beq_iff_eq]
    tauto
  by_cases h : (('a' ≤ c ∧ c ≤ 'z') ∨ ('A' ≤ c ∧ c ≤ 'Z') ∨ ('0' ≤ c ∧ c ≤ '9')
      ∨ c = '.' ∨ c = '-')
  · rw [if_pos (hiff.mpr h), if_pos h]
  · rw [if_neg (fun hh => h (hiff.mp hh)), if_neg h]

/-- C5 (amended): the stored filename is the hostname, the path with
every character outside ASCII letters, digits, dot and hyphen replaced
by an underscore, a date-only timestamp and the error suffix exactly on
error outcomes; two saves whose clock readings share the date part of
the ISO string produce the same path. -/
theorem c5_filename_shape (hostname pathname isoNow isoLater : String) (isError : Bool)
    (hday : timestampOf isoNow = timestampOf isoLater) :
    savePageFilename hostname pathname isoNow isError =
      c5AmendedFilename hostname pathname isoLater isError := by
  unfold savePageFilename c5AmendedFilename sanitizePath
  rw [hday]
  have hmap : pathname.data.map (fun c =>
      if c.isAlphanum || c == '.' || c == '-' then c else '_') =
    pathname.data.map (fun c =>
      if ('a' ≤ c ∧ c ≤ 'z') ∨ ('A' ≤ c ∧ c ≤ 'Z') ∨ ('0' ≤ c ∧ c ≤ '9')
          ∨ c = '.' ∨ c = '-' then c else '_') := by
    rw [funext sanChar_eq]
  rw [hmap]

/-- C5 witness: two saves of the same page on the same calendar day, at
different times of day, land on the same stored filename. -/
theorem c5_filename_shape_witness :
    savePageFilename "example.com" "/a.b/c d" "2026-10-11T09:00:00.000Z" false =
      c5AmendedFilename "example.com" "/a.b/c d" "2026-10-11T23:59:59.999Z" false :=
  c5_filename_shape "example.com" "/a.b/c d" "2026-10-11T09:00:00.000Z"
    "2026-10-11T23:59:59.999Z" false (by decide)

/-- Unfolding equation of the collapse worker at a newline. -/
lemma collapseAux_cons_nl (k : Nat) (cs : List Char) :
    collapseAux k ('\n' :: cs) = collapseAux (k + 1) cs := by
  simp [collapseAux]

/-- Unfolding equation of the collapse worker at a non-newline
character: flush the pending run, capped at two. -/
lemma collapseAux_cons (k : Nat) (c : Char) (cs : List Char) (hc : (c == '\n') = false) :
    collapseAux k (c :: cs) = List.replicate (min k 2) '\n' ++ c :: collapseAux 0 cs := by
  simp [collapseAux, hc]

/-- A block of newlines only grows the pending run counter. -/
lemma collapseAux_replicate (m : Nat) : ∀ (k : Nat) (rest : List Char),
    collapseAux k (List.replicate m '\n' ++ rest) = collapseAux (k + m) rest := by
  induction m with
  | zero => intro k rest; simp
  | succ m ih =>
    intro k rest
    rw [List.replicate_succ, List.cons_append, collapseAux_cons_nl, ih]
    have : k + 1 + m = k + (m + 1) := by omega
    rw [this]

/-- Collapsing splits after a piece that does not end in a newline. -/
lemma collapseAux_append (l1 : List Char) : l1 ≠ [] → l1.getLast? ≠ some '\n' →
    ∀ (k : Nat) (rest : List Char),
    collapseAux k (l1 ++ rest) = collapseAux k l1 ++ collapseAux 0 rest := by
  induction l1 with
  | nil => intro h0; exact absurd rfl h0
  | cons c t ih =>
    intro _ hl k rest
    cases t with
    | nil =>
      have hc : (c == '\n') = false := by
        simp only [List.getLast?_singleton] at hl
        simpa using fun e => hl (by rw [e])
      rw [List.cons_append, List.nil_append, collapseAux_cons k c rest hc,
        collapseAux_cons k c [] hc]
      simp [collapseAux]
    | cons c2 t2 =>
      have hlast : (c :: c2 :: t2).getLast? = (c2 :: t2).getLast? :=
        List.getLast?_cons_cons
      have hl2 : (c2 :: t2).getLast? ≠ some '\n' := by rw [← hlast]; exact hl
      by_cases hc : (c == '\n') = true
      · have hcn : c = '\n' := by simpa using hc
        subst hcn
        rw [List.cons_append, collapseAux_cons_nl, collapseAux_cons_nl,
          ih (by simp) hl2 (k + 1) rest]
      · have hcf : (c == '\n') = false := by simpa using hc
        rw [List.cons_append, collapseAux_cons k c ((c2 :: t2) ++ rest) hcf,
          collapseAux_cons k c (c2 :: t2) hcf, ih (by simp) hl2 0 rest]
        simp

/-- C8: a maximal run of three or more newlines — one not adjoining
further newlines on either side — collapses to exactly two newlines,
the surrounding text being compressed independently. -/
theorem c8_blank_line_collapse (l1 l2 : List Char) (n : Nat) (hn : 3 ≤ n)
    (h1 : l1.getLast? ≠ some '\n') (h2 : l2.head? ≠ some '\n') :
    compressNewlines (String.mk (l1 ++ List.replicate n '\n' ++ l2)) =
      compressNewlines (String.mk l1) ++ "\n\n" ++ compressNewlines (String.mk l2) := by
  have hmin : min (0 + n) 2 = 2 := by omega
  have htail : collapseAux 0 (List.replicate n '\n' ++ l2) =
      '\n' :: '\n' :: collapseAux 0 l2 := by
    rw [collapseAux_replicate]
    cases l2 with
    | nil =>
      rw [show collapseAux (0 + n) ([] : List Char) =
        List.replicate (min (0 + n) 2) '\n' from rfl, hmin]
      rfl
    | cons c t =>
      have hc : (c == '\n') = false := by
        simp only [List.head?_cons] at h2
        simpa using fun e => h2 (by rw [e])
      rw [collapseAux_cons (0 + n) c t hc, collapseAux_cons 0 c t hc, hmin]
      rfl
  have hcore : collapseAux 0 (l1 ++ List.replicate n '\n' ++ l2) =
      collapseAux 0 l1 ++ ('\n' :: '\n' :: []) ++ collapseAux 0 l2 := by
    by_cases hl1 : l1 = []
    · subst hl1
      rw [List.nil_append, htail]
      rfl
    · rw [List.append_assoc, collapseAux_append l1 hl1 h1, htail]
      simp
  show String.mk (collapseAux 0 (l1 ++ List.replicate n '\n' ++ l2)) = _
  rw [hcore]
  rfl

/-- C8 witness: four newlines between two letters come out as exactly
two, by the collapse theorem applied at that concrete body. -/
theorem c8_blank_line_collapse_witness :
    compressNewlines (String.mk ("a".data ++ List.replicate 4 '\n' ++ "b".data)) =
      compressNewlines (String.mk "a".data) ++ "\n\n" ++
        compressNewlines (String.mk "b".data) :=
  c8_blank_line_collapse "a".data "b".data 4 (by decide) (by decide) (by decide)

/-- Data of a concatenation is the concatenation of the data. -/
lemma data_append (a b : String) : (a ++ b).data = a.data ++ b.data := rfl

/-- Prefix test fails as soon as the heads differ. -/
lemma begins_ne_head (a b : Char) (h : ¬ a = b) (p l : List Char) :
    begins (a :: p) (b :: l) = false := by
  simp [begins, h]

/-- The title line never reads as the notice line. -/
lemma hasTips_title (s : String) : hasTipsLine ("title: " ++ s) = false := by
  unfold hasTipsLine
  rw [data_append]
  exact begins_ne_head 'c' 't' (by decide) _ _

/-- The start URL line never reads as the notice line. -/
lemma hasTips_start (s : String) : hasTipsLine ("start_url: " ++ s) = false := by
  unfold hasTipsLine
  rw [data_append]
  exact begins_ne_head 'c' 's' (by decide) _ _

/-- The final URL line never reads as the notice line. -/
lemma hasTips_final (s : String) : hasTipsLine ("final_url: " ++ s) = false := by
  unfold hasTipsLine
  rw [data_append]
  exact begins_ne_head 'c' 'f' (by decide) _ _

/-- The fence line never reads as the notice line. -/
lemma hasTips_dash : hasTipsLine "---" = false := by decide

/-- A blank line never reads as the notice line. -/
lemma hasTips_blank : hasTipsLine "" = false := by decide

/-- The notice line reads as the notice line. -/
lemma hasTips_tips :
    hasTipsLine ("cookie_expired_tips: " ++ toYamlPlainString tipsMessage) = true := by
  decide

/-- The front matter carries a notice line exactly when the flag was
set. -/
lemma buildYaml_any (t u fu : String) (b : Bool) :
    (buildYamlLines t u fu b).any hasTipsLine = b := by
  unfold buildYamlLines
  cases hf : (fu != "" && fu != u) <;> cases b <;>
    simp [List.any_append, hasTips_title, hasTips_start, hasTips_final,
      hasTips_dash, hasTips_blank, hasTips_tips]

/-- C9: the notice line appears in the front matter exactly when the
lowercased raw page HTML contains some marker of the resolved rule as a
case-insensitive substring. -/
theorem c9_login_wall_iff (title url finalUrl rawHtml : String) (rule : DomainRule) :
    ((buildYamlLines title url finalUrl
        (needsLoginState rawHtml rule.blockedIfContains)).any hasTipsLine = true) ↔
      ∃ m ∈ rule.blockedIfContains,
        hasSub (lowerL m.data) (lowerL rawHtml.data) = true := by
  rw [buildYaml_any]
  unfold needsLoginState
  exact List.any_eq_true

/-- Membership after an update comes from the map or is the new
binding. -/
lemma mem_upsert {α : Type} (m : List (String × α)) (k : String) (v : α) :
    ∀ p, p ∈ upsert m k v → p ∈ m ∨ p = (k, v) := by
  induction m with
  | nil =>
    intro p hp
    simp [upsert] at hp
    exact Or.inr hp
  | cons q t ih =>
    intro p hp
    by_cases hq : q.1 == k
    · rw [upsert, if_pos hq] at hp
      rcases List.mem_cons.mp hp with rfl | hp2
      · exact Or.inr rfl
      · exact Or.inl (List.mem_cons_of_mem q hp2)
    · rw [upsert, if_neg hq] at hp
      rcases List.mem_cons.mp hp with rfl | hp2
      · exact Or.inl (List.mem_cons_self _ _)
      · rcases ih p hp2 with hm | he
        · exact Or.inl (List.mem_cons_of_mem q hm)
        · exact Or.inr he

/-- Every marker surviving the normalization of one rule value is a
non-empty string. -/
lemma normalizeRuleValue_markers (v : JValue) (r : DomainRule)
    (h : normalizeRuleValue v = some r) : ∀ m ∈ r.blockedIfContains, m ≠ "" := by
  cases v with
  | jnull => simp [normalizeRuleValue] at h
  | jbool b => simp [normalizeRuleValue] at h
  | jnum n => simp [normalizeRuleValue] at h
  | jstr s =>
    simp only [normalizeRuleValue, Option.some.injEq] at h
    rw [← h]
    intro m hm
    simp at hm
  | jarr xs =>
    simp only [normalizeRuleValue, Option.some.injEq] at h
    rw [← h]
    intro m hm
    simp at hm
  | jobj fields =>
    simp only [normalizeRuleValue, Option.some.injEq] at h
    rw [← h]
    intro m hm
    simp only [] at hm
    cases hbc : lookupJS fields "blocked_if_contains" with
    | none =>
      rw [hbc] at hm
      simp at hm
    | some bv =>
      rw [hbc] at hm
      cases bv with
      | jarr xs =>
        simp only [] at hm
        rcases List.mem_filterMap.mp hm with ⟨x, hx, hfx⟩
        cases x with
        | jstr s2 =>
          by_cases ht : (trimL s2.data == []) = true
          · rw [show (match JValue.jstr s2 with
              | JValue.jstr s => if (trimL s.data == []) = true then none else some s
              | _ => none) = none from by simp [ht]] at hfx
            exact absurd hfx (by simp)
          · rw [show (match JValue.jstr s2 with
              | JValue.jstr s => if (trimL s.data == []) = true then none else some s
              | _ => none) = some s2 from by simp [ht]] at hfx
            have hms : s2 = m := Option.some.inj hfx
            intro he
            exact ht (by rw [hms, he]; decide)
        | jnull => simp at hfx
        | jbool b => simp at hfx
        | jnum n => simp at hfx
        | jarr ys => simp at hfx
        | jobj fs => simp at hfx
      | jnull => simp at hm
      | jbool b => simp at hm
      | jnum n => simp at hm
      | jstr s2 => simp at hm
      | jobj fs => simp at hm

/-- A binding in the normalization fold result comes from the starting
accumulator or from some processed entry with a non-empty key whose
value normalizes to the bound rule. -/
lemma mem_foldl_normStep (l : List (String × JValue)) :
    ∀ acc d r, (d, r) ∈ l.foldl normStep acc →
      (d, r) ∈ acc ∨ (d ≠ "" ∧ ∃ v, (d, v) ∈ l ∧ normalizeRuleValue v = some r) := by
  induction l with
  | nil => intro acc d r h; exact Or.inl h
  | cons p t ih =>
    intro acc d r h
    rw [List.foldl_cons] at h
    rcases ih _ d r h with hacc | ⟨hd, v, hv, hnv⟩
    · by_cases hp : p.1 == ""
      · rw [normStep, if_pos hp] at hacc
        exact Or.inl hacc
      · rw [normStep, if_neg hp] at hacc
        cases hnv2 : normalizeRuleValue p.2 with
        | none =>
          rw [hnv2] at hacc
          exact Or.inl hacc
        | some r2 =>
          rw [hnv2] at hacc
          rcases mem_upsert acc p.1 r2 (d, r) hacc with hm | he
          · exact Or.inl hm
          · have hd : d = p.1 := congrArg Prod.fst he
            have hr : r = r2 := congrArg Prod.snd he
            refine Or.inr ⟨by rw [hd]; simpa using hp, p.2, ?_, by rw [hr]; exact hnv2⟩
            rw [hd]
            exact List.mem_cons_self p t
    · exact Or.inr ⟨hd, v, List.mem_cons_of_mem p hv, hnv⟩

/-- A binding of the normalized table always originates in an entry
with a non-empty key and a value that normalizes — a string or an
object-like value. -/
lemma normalize_mem (raw : JValue) (d : String) (r : DomainRule)
    (h : (d, r) ∈ normalizeDomainRules raw) :
    d ≠ "" ∧ ∃ v, (d, v) ∈ jsEntries raw ∧ normalizeRuleValue v = some r := by
  unfold normalizeDomainRules at h
  by_cases ho : isObjLike raw = true
  · rw [if_pos ho] at h
    rcases mem_foldl_normStep (jsEntries raw) [] d r h with habs | hgood
    · simp at habs
    · exact hgood
  · rw [if_neg ho] at h
    simp at h

/-- The resolver returns the empty rule or a rule bound in the table. -/
lemma getDomainRule_cases (rules : List (String × DomainRule)) (hostOf : Option String) :
    getDomainRuleForUrl rules hostOf = emptyRule ∨
      ∃ d, (d, getDomainRuleForUrl rules hostOf) ∈ rules := by
  cases hostOf with
  | none => exact Or.inl rfl
  | some h =>
    simp only [getDomainRuleForUrl]
    cases h1 : lookupJS rules (String.mk (lowerL h.data)) with
    | some r =>
      rcases Option.map_eq_some'.mp h1 with ⟨pr, hfind, hpr⟩
      refine Or.inr ⟨pr.1, ?_⟩
      rw [← hpr]
      exact List.mem_of_find?_eq_some hfind
    | none =>
      cases h2 : lookupJS rules (String.mk (stripMobile (lowerL h.data))) with
      | some r =>
        rcases Option.map_eq_some'.mp h2 with ⟨pr, hfind, hpr⟩
        refine Or.inr ⟨pr.1, ?_⟩
        rw [← hpr]
        exact List.mem_of_find?_eq_some hfind
      | none =>
        cases h3 : rules.find? (fun p => containsStr (String.mk (lowerL h.data)) p.1 ||
            containsStr p.1 (String.mk (stripMobile (lowerL h.data)))) with
        | some p =>
          refine Or.inr ⟨p.1, ?_⟩
          exact List.mem_of_find?_eq_some h3
        | none => exact Or.inl rfl

/-- C10: for any raw configuration value and any URL hostname outcome,
the resolver is a total function whose result satisfies the shape
invariant — its selector is an optional string by construction and its
markers are all non-empty strings — and every binding of the normalized
table originates in an entry with a non-empty key whose value is a
string or object-like, other values being dropped. -/
theorem c10_shape_invariant (raw : JValue) (hostOf : Option String) :
    (∀ m ∈ (getDomainRuleForUrl (normalizeDomainRules raw) hostOf).blockedIfContains,
      m ≠ "") ∧
    (∀ d r, (d, r) ∈ normalizeDomainRules raw →
      d ≠ "" ∧ ∃ v, (d, v) ∈ jsEntries raw ∧ normalizeRuleValue v = some r) := by
  constructor
  · rcases getDomainRule_cases (normalizeDomainRules raw) hostOf with he | ⟨d, hmem⟩
    · rw [he]
      intro m hm
      simp [emptyRule] at hm
    · rcases normalize_mem raw d _ hmem with ⟨_, v, _, hnv⟩
      exact normalizeRuleValue_markers v _ hnv
  · intro d r h
    exact normalize_mem raw d r h
